import Mathlib

/-!
Verification of the agent-skills-updater core (lockfile store, installer,
backup manager) against its natural-language specification.

The Python source is shallowly embedded:
* parsed JSON values (`json.loads` output) become the `Json` inductive;
* the filesystem becomes an explicit `FS` state (a list of directory paths
  plus a list of file paths with string contents), and `shutil` / `pathlib`
  operations become total functions on `FS`;
* the wall clock becomes an explicit parameter (a `DateTime` value or an
  ISO-timestamp string), so every function is deterministic.

Paths are lists of components, rendered with "/" separators where the code
manipulates the textual form (`str(path)`).
-/

/-! ## Parsed JSON values and Python stringification -/

/-- Model of a parsed Python JSON value (the result of `json.loads`).
Numbers are modelled as integers; no claim depends on float behaviour. -/
inductive Json where
  | null
  | bool (b : Bool)
  | num (n : Int)
  | str (s : String)
  | arr (elems : List Json)
  | obj (fields : List (String × Json))

/-- A single-quote character, used by Python `repr` of strings. -/
def squote : String := String.mk [Char.ofNat 39]

mutual

/-- Model of Python `repr()` on parsed JSON values (string escaping inside
`repr` is not modelled; no claim depends on it). -/
def pyRepr : Json → String
  | .null => "None"
  | .bool true => "True"
  | .bool false => "False"
  | .num n => toString n
  | .str s => squote ++ s ++ squote
  | .arr xs => "[" ++ pyReprList xs ++ "]"
  | .obj kvs => "\x7b" ++ pyReprObj kvs ++ "\x7d"

/-- Comma-separated `repr` of list elements. -/
def pyReprList : List Json → String
  | [] => ""
  | [x] => pyRepr x
  | x :: xs => pyRepr x ++ ", " ++ pyReprList xs

/-- Comma-separated `repr` of dict items. -/
def pyReprObj : List (String × Json) → String
  | [] => ""
  | [(k, v)] => squote ++ k ++ squote ++ ": " ++ pyRepr v
  | (k, v) :: kvs => squote ++ k ++ squote ++ ": " ++ pyRepr v ++ ", " ++ pyReprObj kvs

end

/-- Model of Python `str()` on parsed JSON values (as used by the lockfile
normalization `str(v)`): identity on strings, `repr`-like otherwise. -/
def pyStr (j : Json) : String :=
  match j with
  | .str s => s
  | j => pyRepr j

mutual

/-- Model of `json.dumps` (whitespace/indentation is abstracted away; claims
only ever compare dumped contents for equality). -/
def dumpJson : Json → String
  | .null => "null"
  | .bool true => "true"
  | .bool false => "false"
  | .num n => toString n
  | .str s => "\"" ++ s ++ "\""
  | .arr xs => "[" ++ dumpJsonList xs ++ "]"
  | .obj kvs => "\x7b" ++ dumpJsonObj kvs ++ "\x7d"

/-- Comma-separated dump of list elements. -/
def dumpJsonList : List Json → String
  | [] => ""
  | [x] => dumpJson x
  | x :: xs => dumpJson x ++ ", " ++ dumpJsonList xs

/-- Comma-separated dump of dict items. -/
def dumpJsonObj : List (String × Json) → String
  | [] => ""
  | [(k, v)] => "\"" ++ k ++ "\": " ++ dumpJson v
  | (k, v) :: kvs => "\"" ++ k ++ "\": " ++ dumpJson v ++ ", " ++ dumpJsonObj kvs

end

/-- Python `dict.get` on a parsed JSON object: first binding of the key
(parsed Python dicts have unique keys). -/
def objGet (kvs : List (String × Json)) (k : String) : Option Json :=
  (kvs.find? fun kv => kv.1 == k).map (·.2)

/-! ## Lockfile store (`lockfile.py`) -/

/-- An entry of the in-memory lockfile: a Python `dict[str, str]`, modelled
as an association list preserving insertion order. -/
abbrev Entry := List (String × String)

/-- Python `dict.get` on an entry. -/
def entryGet (e : Entry) (k : String) : Option String :=
  (e.find? fun kv => kv.1 == k).map (·.2)

/-- In-memory representation of the skill lockfile (`class Lockfile`):
`entries : dict[str, dict[str, str]]` as an ordered association list. -/
structure Lockfile where
  entries : List (String × Entry)
deriving DecidableEq

/-- Record of a single installed skill (`@dataclass InstalledSkill`); only
the four fields read by `Lockfile.update_entry` are modelled. -/
structure InstalledSkill where
  name : String
  source : String
  sourceUrl : String
  skillPath : String

/-- Lookup of a lockfile entry by skill name (`self.entries.get(name)`). -/
def Lockfile.lookupEntry (lf : Lockfile) (n : String) : Option Entry :=
  (lf.entries.find? fun kv => kv.1 == n).map (·.2)

/-- Model of `Lockfile.update_entry`.  The current time (`datetime.now`
formatted as an ISO string) is passed explicitly as `now`.  Python dict
assignment keeps the position of an existing key and appends a new one. -/
def Lockfile.updateEntry (lf : Lockfile) (skill : InstalledSkill) (now : String) : Lockfile :=
  let newEntry : Entry :=
    match lf.lookupEntry skill.name with
    | some existing =>
        [("source", skill.source), ("sourceUrl", skill.sourceUrl),
         ("skillPath", skill.skillPath),
         ("installedAt", (entryGet existing "installedAt").getD now),
         ("updatedAt", now)]
    | none =>
        [("source", skill.source), ("sourceUrl", skill.sourceUrl),
         ("skillPath", skill.skillPath),
         ("installedAt", now), ("updatedAt", now)]
  if lf.entries.any fun kv => kv.1 == skill.name then
    ⟨lf.entries.map fun kv => if kv.1 == skill.name then (skill.name, newEntry) else kv⟩
  else
    ⟨lf.entries ++ [(skill.name, newEntry)]⟩

/-- Model of `Lockfile.to_dict`: `{"version": 1, "skills": entries}`. -/
def Lockfile.toDict (lf : Lockfile) : Json :=
  .obj [("version", .num 1),
        ("skills", .obj (lf.entries.map fun kv =>
          (kv.1, Json.obj (kv.2.map fun f => (f.1, Json.str f.2)))))]

/-- The normalization loop of `load_lockfile`: each entry that is a mapping
is kept with its values passed through `str`, other entries are dropped. -/
def cleanEntries (es : List (String × Json)) : List (String × Entry) :=
  es.filterMap fun kv =>
    match kv.2 with
    | .obj fields => some (kv.1, fields.map fun f => (f.1, pyStr f.2))
    | _ => none

/-- The shape check of `load_lockfile` after `json.loads`: the top level must
be a dict, `entries = data.get("skills", data)` must again be a dict. -/
def entriesOf (j : Json) : Option (List (String × Json)) :=
  match j with
  | .obj kvs =>
      match objGet kvs "skills" with
      | some (.obj es) => some es
      | some _ => none
      | none => some kvs
  | _ => none

/-- Outcome of reading and parsing the lockfile file, the input to
`load_lockfile` after the `path.is_file()` check and the
`json.loads` call: the file may be missing, unreadable/unparseable
(`OSError` / `JSONDecodeError`), or parsed to a JSON value. -/
inductive LoadInput where
  | missing
  | unparseable
  | parsed (j : Json)

/-- The pure tail of `load_lockfile` acting on a parsed JSON value. -/
def loadData (j : Json) : Lockfile :=
  match entriesOf j with
  | some es => ⟨cleanEntries es⟩
  | none => ⟨[]⟩

/-- Model of `load_lockfile`: missing or malformed content yields the empty
lockfile, otherwise the shape check and normalization run on the parsed
value. -/
def loadLockfile (input : LoadInput) : Lockfile :=
  match input with
  | .missing => ⟨[]⟩
  | .unparseable => ⟨[]⟩
  | .parsed j => loadData j

/-! ## Filesystem model

Paths are lists of components.  A filesystem state is the list of directory
paths plus the list of file paths with their textual contents.  The
`shutil` / `pathlib` operations used by the source are modelled as total
functions (an I/O error such as a permission failure is outside the model;
the embedded operations are the success semantics). -/

/-- A filesystem path: list of name components, root first. -/
abbrev FsPath := List String

/-- The final component (`path.name`), empty for the root. -/
def pathName (p : FsPath) : String := p.getLast?.getD ""

/-- The parent path (`path.parent`). -/
def pathParent (p : FsPath) : FsPath := p.dropLast

/-- Whether `p` lies in the subtree rooted at `anc` (including `anc`). -/
def isUnder (anc p : FsPath) : Bool := p.take anc.length == anc

/-- All prefixes of a path, shortest first (the directories `mkdir
parents=True` has to ensure). -/
def pathPrefixes (p : FsPath) : List FsPath :=
  (List.range (p.length + 1)).map fun i => p.take i

/-- Textual form of a path (`str(path)`), components joined by "/". -/
def pathStr (p : FsPath) : String := String.intercalate "/" p

/-- A filesystem state. -/
structure FS where
  dirs : List FsPath
  files : List (FsPath × String)

/-- Model of `path.is_dir()`. -/
def FS.isDir (fs : FS) (p : FsPath) : Bool := fs.dirs.contains p

/-- Model of `path.is_file()`. -/
def FS.isFile (fs : FS) (p : FsPath) : Bool := fs.files.any fun e => e.1 == p

/-- Model of `path.exists()`. -/
def FS.pathExists (fs : FS) (p : FsPath) : Bool := fs.isDir p || fs.isFile p

/-- Model of `path.read_text()`. -/
def FS.read (fs : FS) (p : FsPath) : Option String :=
  (fs.files.find? fun e => e.1 == p).map (·.2)

/-- Model of `path.write_text(c)` (also of `shutil.copy2` once the source
content has been read): create or overwrite the file at `p`. -/
def FS.writeFile (fs : FS) (p : FsPath) (c : String) : FS :=
  { fs with files := (p, c) :: fs.files.filter fun e => e.1 != p }

/-- Model of `path.mkdir(parents=True, exist_ok=True)`: add every missing
prefix of `p` as a directory. -/
def FS.mkdirParents (fs : FS) (p : FsPath) : FS :=
  { fs with dirs := fs.dirs ++ (pathPrefixes p).filter fun q => ! fs.dirs.contains q }

/-- Model of `shutil.rmtree(p)`: remove the whole subtree at `p`. -/
def FS.rmtree (fs : FS) (p : FsPath) : FS :=
  { dirs := fs.dirs.filter fun q => ! isUnder p q,
    files := fs.files.filter fun e => ! isUnder p e.1 }

/-- Model of `shutil.copytree(src, dst)`: replicate the subtree of `src`
under `dst` (with `dirs_exist_ok` merge semantics; the call sites either
remove `dst` first or pass `dirs_exist_ok=True`). -/
def FS.copyTree (fs : FS) (src dst : FsPath) : FS :=
  let newDirs := (fs.dirs.filter fun q => isUnder src q).map
    fun q => dst ++ q.drop src.length
  let newFiles := (fs.files.filter fun e => isUnder src e.1).map
    fun e => (dst ++ e.1.drop src.length, e.2)
  { dirs := fs.dirs ++ newDirs.filter fun q => ! fs.dirs.contains q,
    files := newFiles ++ fs.files.filter fun e => ! newFiles.any fun n => n.1 == e.1 }

/-- The immediate subdirectories of `root` (`[d for d in root.iterdir() if
d.is_dir()]`). -/
def childDirsOf (fs : FS) (root : FsPath) : List FsPath :=
  fs.dirs.filter fun d => d.length == root.length + 1 && isUnder root d

/-! ## Configuration (`config.py`) and CLI context (`cli.py`) -/

/-- The configuration fields consumed by the installer and backup manager
(`AppConfig`). -/
structure AppConfig where
  globalSkillsPath : FsPath
  windsurfSkillsPath : FsPath
  backupPath : FsPath
  keepBackups : Nat

/-- Model of `AppConfig.skill_target_paths`. -/
def AppConfig.skillTargetPaths (cfg : AppConfig) : List FsPath :=
  [cfg.globalSkillsPath, cfg.windsurfSkillsPath]

/-- The lockfile file name (`_LOCKFILE_NAME`). -/
def lockfileName : String := ".skill-lock.json"

/-- Model of `_lockfile_path`: next to the global skills path. -/
def lockfilePath (cfg : AppConfig) : FsPath :=
  pathParent cfg.globalSkillsPath ++ [lockfileName]

/-- The CLI context flags read by the installer and backup manager
(`class Context`; console output is not modelled). -/
structure Context where
  dryRun : Bool
  force : Bool
  verbose : Bool

/-! ## Backup manager (`backup.py`) -/

/-- A UTC clock reading, the input of `datetime.now(timezone.utc)`.
Fields are what `strftime("%Y%m%dT%H%M%S_%fZ")` reads. -/
structure DateTime where
  year : Nat
  month : Nat
  day : Nat
  hour : Nat
  minute : Nat
  second : Nat
  usec : Nat

/-- Field bounds under which the strftime rendering is fixed-width (real
clock readings satisfy much tighter bounds). -/
def DateTime.Valid (t : DateTime) : Prop :=
  t.year < 10000 ∧ t.month < 100 ∧ t.day < 100 ∧ t.hour < 100 ∧
    t.minute < 100 ∧ t.second < 100 ∧ t.usec < 1000000

/-- Chronological strict order on clock readings: lexicographic on
(year, month, day, hour, minute, second, microsecond). -/
def DateTime.chronoLt (t u : DateTime) : Prop :=
  t.year < u.year ∨ (t.year = u.year ∧
    (t.month < u.month ∨ (t.month = u.month ∧
      (t.day < u.day ∨ (t.day = u.day ∧
        (t.hour < u.hour ∨ (t.hour = u.hour ∧
          (t.minute < u.minute ∨ (t.minute = u.minute ∧
            (t.second < u.second ∨ (t.second = u.second ∧
              t.usec < u.usec)))))))))))

/-- An ASCII decimal digit character, as produced by `strftime`. -/
def digitChar (d : Nat) : Char :=
  match d with
  | 0 => '0' | 1 => '1' | 2 => '2' | 3 => '3' | 4 => '4'
  | 5 => '5' | 6 => '6' | 7 => '7' | 8 => '8' | _ => '9'

/-- Fixed-width zero-padded decimal rendering (most significant digit
first), as produced by the `%Y`/`%m`/`%d`/`%H`/`%M`/`%S`/`%f` directives. -/
def padNat : Nat → Nat → List Char
  | 0, _ => []
  | w + 1, n => digitChar (n / 10 ^ w % 10) :: padNat w n

/-- Model of `_timestamp_label`: `strftime("%Y%m%dT%H%M%S_%fZ")` on the
current UTC time, passed explicitly as `t`. -/
def timestampLabel (t : DateTime) : String :=
  String.mk (padNat 4 t.year ++ padNat 2 t.month ++ padNat 2 t.day ++ ['T'] ++
    padNat 2 t.hour ++ padNat 2 t.minute ++ padNat 2 t.second ++ ['_'] ++
    padNat 6 t.usec ++ ['Z'])

/-- The per-target-root sanitization
`str(target_path).replace("\\", "_").replace("/", "_").replace(":", "")`,
character by character (every pattern is a single character). -/
def sanitizeChars (cs : List Char) : List Char :=
  ((cs.map fun c => if c = '\\' then '_' else c).map
    fun c => if c = '/' then '_' else c).filter fun c => c != ':'

/-- String form of the sanitization. -/
def sanitizeStr (s : String) : String := String.mk (sanitizeChars s.data)

/-- The namespace label a target root gets inside a snapshot; computed
identically by `create_backup` and `restore_backup`. -/
def targetLabel (t : FsPath) : String := sanitizeStr (pathStr t)

/-- ISO rendering of a clock reading with seconds precision, used for the
`created` field of `backup-meta.json` (content never examined by claims). -/
def isoSeconds (t : DateTime) : String :=
  String.mk (padNat 4 t.year ++ ['-'] ++ padNat 2 t.month ++ ['-'] ++ padNat 2 t.day ++
    ['T'] ++ padNat 2 t.hour ++ [':'] ++ padNat 2 t.minute ++ [':'] ++
    padNat 2 t.second ++ ['+', '0', '0', ':', '0', '0'])

/-- Sort a list of paths by `d.name` descending
(`sorted(..., key=lambda d: d.name, reverse=True)`). -/
def sortByNameDesc (l : List FsPath) : List FsPath :=
  List.insertionSort (fun a b => pathName b ≤ pathName a) l

/-- Model of `_enforce_retention`: keep the `keep_backups` newest snapshot
directories by name, delete the rest. -/
def enforceRetention (cfg : AppConfig) (fs : FS) : FS :=
  let root := cfg.backupPath
  if fs.isDir root then
    let backups := sortByNameDesc (childDirsOf fs root)
    (backups.drop cfg.keepBackups).foldl (fun fs d => fs.rmtree d) fs
  else fs

/-- Summary of a created snapshot (`BackupInfo`). -/
structure BackupInfo where
  path : FsPath
  timestamp : String
  skillCount : Nat
  skills : List String

/-- The per-skill body of the capture loop of `create_backup`. -/
def backupSkillStep (target dest : FsPath) (st : FS × List String)
    (kv : String × Entry) : FS × List String :=
  let skillDir := target ++ [kv.1]
  if st.1.isDir skillDir then
    let skillDest := dest ++ [kv.1]
    let fs := st.1.mkdirParents (pathParent skillDest)
    let fs := fs.copyTree skillDir skillDest
    (fs, if st.2.contains kv.1 then st.2 else st.2 ++ [kv.1])
  else st

/-- The per-target-root body of the capture loop of `create_backup`. -/
def backupTargetStep (lf : Lockfile) (backupRoot : FsPath) (st : FS × List String)
    (target : FsPath) : FS × List String :=
  if st.1.isDir target then
    lf.entries.foldl (backupSkillStep target (backupRoot ++ [targetLabel target])) st
  else st

/-- Model of `create_backup`; the clock reading that `_timestamp_label` and
the metadata `created` field observe is passed explicitly as `t`. -/
def createBackup (cfg : AppConfig) (lf : Lockfile) (t : DateTime) (fs : FS) :
    FS × Option BackupInfo :=
  if lf.entries.isEmpty then (fs, none)
  else
    let ts := timestampLabel t
    let backupRoot := cfg.backupPath ++ [ts]
    let fs := fs.mkdirParents backupRoot
    let st := cfg.skillTargetPaths.foldl (backupTargetStep lf backupRoot) (fs, [])
    let backedUp := st.2
    let fs := st.1.writeFile (backupRoot ++ ["lockfile.json"]) (dumpJson lf.toDict)
    let fs := fs.writeFile (backupRoot ++ ["backup-meta.json"])
      (dumpJson (.obj [("timestamp", .str ts), ("created", .str (isoSeconds t)),
        ("skills", .arr (backedUp.map Json.str))]))
    let fs := enforceRetention cfg fs
    (fs, some ⟨backupRoot, ts, backedUp.length, backedUp⟩)

/-- Model of `list_backups`, reduced to the snapshot directory paths, newest
first; the per-snapshot metadata it additionally reads only populates the
summary fields, which `restore_backup` never consults. -/
def listBackups (cfg : AppConfig) (fs : FS) : List FsPath :=
  if fs.isDir cfg.backupPath then sortByNameDesc (childDirsOf fs cfg.backupPath)
  else []

/-- The per-skill body of the restore loops: remove the existing
destination, recreate its parent, copy the captured subtree — or do nothing
on a dry run. -/
def restoreOne (dryRun : Bool) (skillBackup dest : FsPath) (fs : FS) : FS :=
  if dryRun then fs
  else
    let fs := if fs.pathExists dest then fs.rmtree dest else fs
    let fs := fs.mkdirParents (pathParent dest)
    fs.copyTree skillBackup dest

/-- Python truthiness of the `skill_name` argument: `None` and the empty
string both select the restore-all branch. -/
def givenSkill (skillName : Option String) : Option String :=
  match skillName with
  | none => none
  | some s => if s = "" then none else some s

/-- The per-target-root body of the restore loop of `restore_backup`. -/
def restoreTargetStep (ctx : Context) (skillName : Option String) (latest : FsPath)
    (st : FS × Bool) (target : FsPath) : FS × Bool :=
  let backupTarget := latest ++ [targetLabel target]
  if st.1.isDir backupTarget then
    match givenSkill skillName with
    | some s =>
      let skillBackup := backupTarget ++ [s]
      if st.1.isDir skillBackup then
        (restoreOne ctx.dryRun skillBackup (target ++ [s]) st.1, true)
      else st
    | none =>
      (childDirsOf st.1 backupTarget).foldl (fun (st : FS × Bool) skillDir =>
        (restoreOne ctx.dryRun skillDir (target ++ [pathName skillDir]) st.1, true)) st
  else st

/-- Model of `restore_backup`: restore from the newest snapshot only,
returning the new filesystem and the `restored_any` flag. -/
def restoreBackup (cfg : AppConfig) (ctx : Context) (skillName : Option String)
    (fs : FS) : FS × Bool :=
  match listBackups cfg fs with
  | [] => (fs, false)
  | latest :: _ =>
    let st := cfg.skillTargetPaths.foldl (restoreTargetStep ctx skillName latest) (fs, false)
    let fs2 :=
      if (givenSkill skillName).isNone && ! ctx.dryRun then
        match st.1.read (latest ++ ["lockfile.json"]) with
        | some content => st.1.writeFile (lockfilePath cfg) content
        | none => st.1
      else st.1
    (fs2, st.2)

/-! ## Installer (`installer.py`) -/

/-- Model of `_find_skill_dir_standard`. -/
def findSkillDirStandard (fs : FS) (repoPath : FsPath) (skillName : String) :
    Option FsPath :=
  if fs.isDir (repoPath ++ ["skills", skillName]) then
    some (repoPath ++ ["skills", skillName])
  else if fs.isDir (repoPath ++ ["src", "skills", skillName]) then
    some (repoPath ++ ["src", "skills", skillName])
  else none

/-- Model of `_find_skill_dir_root`. -/
def findSkillDirRoot (fs : FS) (repoPath : FsPath) (_skillName : String) :
    Option FsPath :=
  if fs.isFile (repoPath ++ ["SKILL.md"]) then some repoPath else none

/-- Model of `_find_skill_dir_template`. -/
def findSkillDirTemplate (fs : FS) (repoPath : FsPath) (_skillName : String) :
    Option FsPath :=
  if fs.isDir (repoPath ++ ["template"]) then some (repoPath ++ ["template"]) else none

/-- Model of `_find_skill_dir_multi` (the trailing scan over `iterdir`
re-checks the same candidate directory by name). -/
def findSkillDirMulti (fs : FS) (repoPath : FsPath) (skillName : String) :
    Option FsPath :=
  let candidate := repoPath ++ [skillName]
  if fs.isDir candidate && fs.isFile (candidate ++ ["SKILL.md"]) then some candidate
  else
    ((childDirsOf fs repoPath).filter fun d =>
      pathName d == skillName && fs.isFile (d ++ ["SKILL.md"])).head?

/-- Model of the `_STRUCTURE_FINDERS` dispatch table. -/
def structureFinder (structureKind : String) :
    Option (FS → FsPath → String → Option FsPath) :=
  if structureKind = "standard" then some findSkillDirStandard
  else if structureKind = "root" then some findSkillDirRoot
  else if structureKind = "template" then some findSkillDirTemplate
  else if structureKind = "multi" then some findSkillDirMulti
  else none

/-- Model of `_copy_skill`: returns the new filesystem and whether the skill
was copied (or would be, on a dry run). -/
def copySkill (fs : FS) (sourceDir targetDir : FsPath) (skillName : String)
    (force dryRun : Bool) : FS × Bool :=
  let dest := targetDir ++ [skillName]
  if fs.pathExists dest && ! force then (fs, false)
  else if dryRun then (fs, true)
  else
    let fs := fs.mkdirParents (pathParent dest)
    let fs := if fs.pathExists dest then fs.rmtree dest else fs
    (fs.copyTree sourceDir dest, true)

/-- Configuration of a single skill repository (`RepoConfig`). -/
structure RepoConfig where
  name : String
  url : String
  skills : List String
  structureKind : String

/-- Outcome of fetching one repository (`DownloadResult`). -/
structure DownloadResult where
  success : Bool
  repo : RepoConfig
  localPath : FsPath

/-- Python truthiness of `skill_filter`: `None` and the empty list both
disable filtering. -/
def skillsToInstall (repo : RepoConfig) (skillFilter : Option (List String)) :
    List String :=
  match skillFilter with
  | none => repo.skills
  | some f => if f.isEmpty then repo.skills else repo.skills.filter fun s => f.contains s

/-- Model of `install_skills`: returns the new filesystem and the
`InstalledSkill` records (per-target I/O exceptions are outside the model;
the embedded copies are the success semantics). -/
def installSkills (cfg : AppConfig) (results : List DownloadResult) (ctx : Context)
    (skillFilter : Option (List String)) (fs : FS) : FS × List InstalledSkill :=
  results.foldl (fun (st : FS × List InstalledSkill) result =>
    if result.success then
      match structureFinder result.repo.structureKind with
      | none => st
      | some finder =>
        let skills := skillsToInstall result.repo skillFilter
        if skills.isEmpty then st
        else
          skills.foldl (fun (st : FS × List InstalledSkill) skillName =>
            match finder st.1 result.localPath skillName with
            | none => st
            | some skillDir =>
              let st2 := cfg.skillTargetPaths.foldl
                (fun (st : FS × Bool) target =>
                  if st.1.isDir target then
                    let res := copySkill st.1 skillDir target skillName
                      ctx.force ctx.dryRun
                    (res.1, st.2 || res.2)
                  else st) (st.1, false)
              if st2.2 then
                (st2.1, st.2 ++ [⟨skillName, result.repo.name, result.repo.url,
                  pathStr (skillDir.drop result.localPath.length)⟩])
              else (st2.1, st.2)) st
    else st) (fs, [])

/-! ## Generic fold helpers -/

theorem foldl_inv {σ α : Type _} (P : σ → Prop) (f : σ → α → σ) (l : List α) (init : σ)
    (h0 : P init) (h : ∀ s, P s → ∀ a ∈ l, P (f s a)) : P (l.foldl f init) := by
  induction l generalizing init with
  | nil => exact h0
  | cons a t ih =>
      exact ih (f init a) (h init h0 a (List.mem_cons_self a t))
        fun s hs b hb => h s hs b (List.mem_cons_of_mem a hb)

theorem foldl_fixed {σ α : Type _} (f : σ → α → σ) (l : List α) (init : σ)
    (h : ∀ a ∈ l, f init a = init) : l.foldl f init = init := by
  induction l with
  | nil => rfl
  | cons a t ih =>
      rw [List.foldl_cons, h a (List.mem_cons_self a t)]
      exact ih fun b hb => h b (List.mem_cons_of_mem a hb)

/-! ## Dry-run and skip lemmas -/

theorem copySkill_dry_fst (fs : FS) (sourceDir targetDir : FsPath) (skillName : String)
    (force : Bool) : (copySkill fs sourceDir targetDir skillName force true).1 = fs := by
  unfold copySkill
  by_cases h : (fs.pathExists (targetDir ++ [skillName]) && !force) = true
  · simp [h]
  · simp [h]

theorem restoreOne_dry (skillBackup dest : FsPath) (fs : FS) :
    restoreOne true skillBackup dest fs = fs := rfl

/-- C4: with zero existing snapshots, `restore_backup` returns failure and
the filesystem is unchanged (nothing is created or modified). -/
theorem restore_no_snapshot_no_mutation (cfg : AppConfig) (ctx : Context)
    (skillName : Option String) (fs : FS)
    (h : childDirsOf fs cfg.backupPath = []) :
    restoreBackup cfg ctx skillName fs = (fs, false) := by
  have hl : listBackups cfg fs = [] := by
    simp [listBackups, h, sortByNameDesc]
  unfold restoreBackup
  rw [hl]

theorem restore_no_snapshot_no_mutation_witness :
    restoreBackup ⟨["g", "skills"], ["w", "skills"], ["b"], 5⟩ ⟨false, false, false⟩
      none ⟨[["g"]], [(["g", "x"], "c")]⟩ = (⟨[["g"]], [(["g", "x"], "c")]⟩, false) :=
  restore_no_snapshot_no_mutation _ _ _ _ (by decide)

/-- C7: when the destination `targetRoot/skillName` already exists and
`force` is false, `_copy_skill` reports the skill as skipped (returns
`False`) and the filesystem is unchanged, whatever the dry-run flag is. -/
theorem copy_skill_skips_existing (fs : FS) (sourceDir targetDir : FsPath)
    (skillName : String) (dryRun : Bool)
    (h : fs.pathExists (targetDir ++ [skillName]) = true) :
    copySkill fs sourceDir targetDir skillName false dryRun = (fs, false) := by
  unfold copySkill
  simp [h]

theorem copy_skill_skips_existing_witness :
    copySkill ⟨[["t", "sk"]], []⟩ ["s"] ["t"] "sk" false false = (⟨[["t", "sk"]], []⟩, false) :=
  copy_skill_skips_existing _ _ _ _ _ (by decide)

/-- C2: with the dry-run flag set, neither `_copy_skill`, nor
`install_skills`, nor `restore_backup` mutates the filesystem: the resulting
state equals the input state exactly (so no directory is created, removed or
copied and no file — in particular not the lockfile — is written). -/
theorem dry_run_no_mutation (cfg : AppConfig) (results : List DownloadResult)
    (skillFilter : Option (List String)) (force verbose : Bool)
    (skillName : Option String) (sourceDir targetDir : FsPath) (skill : String)
    (fs : FS) :
    (copySkill fs sourceDir targetDir skill force true).1 = fs ∧
    (installSkills cfg results ⟨true, force, verbose⟩ skillFilter fs).1 = fs ∧
    (restoreBackup cfg ⟨true, force, verbose⟩ skillName fs).1 = fs := by
  refine ⟨copySkill_dry_fst fs sourceDir targetDir skill force, ?_, ?_⟩
  · unfold installSkills
    refine foldl_inv (fun st : FS × List InstalledSkill => st.1 = fs) _ _ _ rfl ?_
    intro st hst a _
    by_cases hs : a.success = true
    · simp only [hs, if_true]
      cases hf : structureFinder a.repo.structureKind with
      | none => exact hst
      | some finder =>
          simp only
          by_cases he : (skillsToInstall a.repo skillFilter).isEmpty = true
          · simp only [he, if_true]; exact hst
          · simp only [he, Bool.false_eq_true, if_false]
            refine foldl_inv (fun st : FS × List InstalledSkill => st.1 = fs) _ _ _ hst ?_
            intro st' hst' b _
            cases hfind : finder st'.1 a.localPath b with
            | none => exact hst'
            | some skillDir =>
                simp only [apply_ite Prod.fst]
                rw [ite_self]
                refine foldl_inv (fun q : FS × Bool => q.1 = fs) _ _ _ hst' ?_
                intro q hq c _
                by_cases hd : q.1.isDir c = true
                · simp only [hd, if_true]
                  exact (copySkill_dry_fst q.1 skillDir c b force).trans hq
                · simp only [hd, Bool.false_eq_true, if_false]; exact hq
    · simp only [hs, Bool.false_eq_true, if_false]; exact hst
  · unfold restoreBackup
    cases hl : listBackups cfg fs with
    | nil => rfl
    | cons latest rest =>
        have hc : ((givenSkill skillName).isNone &&
            !(Context.mk true force verbose).dryRun) = false := by simp
        simp only [hc, Bool.false_eq_true, if_false]
        refine foldl_inv (fun st : FS × Bool => st.1 = fs) _ _ _ rfl ?_
        intro st hst a _
        unfold restoreTargetStep
        by_cases hd : st.1.isDir (latest ++ [targetLabel a]) = true
        · simp only [hd, if_true]
          cases hg : givenSkill skillName with
          | some s =>
              simp only
              by_cases hsb : st.1.isDir (latest ++ [targetLabel a] ++ [s]) = true
              · simp only [hsb, if_true]; exact hst
              · simp only [hsb, Bool.false_eq_true, if_false]; exact hst
          | none =>
              simp only
              refine foldl_inv (fun q : FS × Bool => q.1 = fs) _ _ _ hst ?_
              intro q hq c _
              exact hq
        · simp only [hd, Bool.false_eq_true, if_false]; exact hst

/-! ## Lockfile store theorems -/

theorem pyStr_str (s : String) : pyStr (Json.str s) = s := rfl

theorem map_str_pyStr (e : Entry) :
    ((e.map fun f => (f.1, Json.str f.2)).map fun f => (f.1, pyStr f.2)) = e := by
  induction e with
  | nil => rfl
  | cons f t ih =>
      simp only [List.map_cons, ih]
      rfl

theorem cleanEntries_map (l : List (String × Entry)) :
    cleanEntries (l.map fun kv =>
      (kv.1, Json.obj (kv.2.map fun f => (f.1, Json.str f.2)))) = l := by
  induction l with
  | nil => rfl
  | cons a t ih =>
      show ((a.1, (a.2.map fun f => (f.1, Json.str f.2)).map fun f => (f.1, pyStr f.2))
        :: cleanEntries (t.map fun kv =>
          (kv.1, Json.obj (kv.2.map fun f => (f.1, Json.str f.2))))) = a :: t
      rw [map_str_pyStr, ih]

/-- C9: saving a loaded lockfile reproduces the same semantic content —
`to_dict` (the serialized form written by `save_lockfile`) re-read through
the shape check and normalization of `load_lockfile` is the identity, so
loading the re-saved file yields exactly the entries of the original. -/
theorem save_load_roundtrip :
    (∀ lf : Lockfile, loadData lf.toDict = lf) ∧
    (∀ j : Json, loadData (Lockfile.toDict (loadData j)) = loadData j) := by
  have h1 : ∀ lf : Lockfile, loadData lf.toDict = lf := by
    intro lf
    have he : entriesOf lf.toDict = some (lf.entries.map fun kv =>
        (kv.1, Json.obj (kv.2.map fun f => (f.1, Json.str f.2)))) := rfl
    unfold loadData
    rw [he]
    show Lockfile.mk (cleanEntries (lf.entries.map fun kv =>
      (kv.1, Json.obj (kv.2.map fun f => (f.1, Json.str f.2))))) = lf
    rw [cleanEntries_map]
  exact ⟨h1, fun j => h1 (loadData j)⟩

theorem find?_map_replace (l : List (String × Entry)) (n : String) (e : Entry) :
    (l.any fun kv => kv.1 == n) = true →
    ((l.map fun kv => if kv.1 == n then (n, e) else kv).find? fun kv => kv.1 == n)
      = some (n, e) := by
  induction l with
  | nil => intro h; simp at h
  | cons a t ih =>
      intro h
      simp only [List.map_cons]
      by_cases ha : (a.1 == n) = true
      · rw [if_pos ha, List.find?_cons_of_pos _ (by simp)]
      · have ha' : (a.1 == n) = false := Bool.eq_false_iff.mpr ha
        rw [if_neg ha, List.find?_cons_of_neg _ (by simp [ha'])]
        apply ih
        simp only [List.any_cons, ha', Bool.false_or] at h
        exact h

/-- C6: `update_entry` upserts the record's entry: the stored entry always
gets `updatedAt = now`; an existing entry keeps its `installedAt` value; a
fresh entry gets `installedAt = now`; and — the clock being non-decreasing,
i.e. any previously stored `installedAt` being at most `now` — the written
entry satisfies `installedAt <= updatedAt` (its `updatedAt` being `now`). -/
theorem update_entry_upsert (lf : Lockfile) (skill : InstalledSkill) (now : String)
    (hclock : ∀ e ∈ lf.lookupEntry skill.name, ∀ v ∈ entryGet e "installedAt", v ≤ now) :
    ((lf.updateEntry skill now).lookupEntry skill.name).isSome = true ∧
    ∀ e ∈ (lf.updateEntry skill now).lookupEntry skill.name,
      entryGet e "updatedAt" = some now ∧
      (∀ old ∈ lf.lookupEntry skill.name, ∀ v ∈ entryGet old "installedAt",
        entryGet e "installedAt" = some v) ∧
      (lf.lookupEntry skill.name = none → entryGet e "installedAt" = some now) ∧
      (∀ v ∈ entryGet e "installedAt", v ≤ now) := by
  by_cases hany : (lf.entries.any fun kv => kv.1 == skill.name) = true
  · have hsome : (lf.entries.find? fun kv => kv.1 == skill.name).isSome := by
      rw [List.find?_isSome]
      exact List.any_eq_true.mp hany
    obtain ⟨found, hfound⟩ := Option.isSome_iff_exists.mp hsome
    have hex : lf.lookupEntry skill.name = some found.2 := by
      unfold Lockfile.lookupEntry
      rw [hfound]
      rfl
    have hupdate : lf.updateEntry skill now = ⟨lf.entries.map fun kv =>
        if kv.1 == skill.name then
          (skill.name, [("source", skill.source), ("sourceUrl", skill.sourceUrl),
            ("skillPath", skill.skillPath),
            ("installedAt", (entryGet found.2 "installedAt").getD now),
            ("updatedAt", now)])
        else kv⟩ := by
      unfold Lockfile.updateEntry
      rw [hex]
      dsimp only
      rw [if_pos hany]
    have hlook : (lf.updateEntry skill now).lookupEntry skill.name =
        some [("source", skill.source), ("sourceUrl", skill.sourceUrl),
          ("skillPath", skill.skillPath),
          ("installedAt", (entryGet found.2 "installedAt").getD now),
          ("updatedAt", now)] := by
      rw [hupdate]
      unfold Lockfile.lookupEntry
      dsimp only
      rw [find?_map_replace _ _ _ hany]
      rfl
    refine ⟨by rw [hlook]; rfl, ?_⟩
    intro e he
    rw [hlook, Option.mem_def, Option.some.injEq] at he
    subst he
    refine ⟨rfl, ?_, ?_, ?_⟩
    · intro old hold v hv
      rw [Option.mem_def, hex, Option.some.injEq] at hold
      rw [Option.mem_def] at hv
      show some ((entryGet found.2 "installedAt").getD now) = some v
      rw [hold, hv]
      rfl
    · intro hcontra
      rw [hex] at hcontra
      cases hcontra
    · intro v hv
      rw [Option.mem_def] at hv
      have hv' : some ((entryGet found.2 "installedAt").getD now) = some v := hv
      rw [Option.some.injEq] at hv'
      subst hv'
      cases h : entryGet found.2 "installedAt" with
      | none => simp
      | some w =>
          rw [Option.getD_some]
          exact hclock found.2 (by rw [hex]; rfl) w (by rw [h]; rfl)
  · have hfindnone : (lf.entries.find? fun kv => kv.1 == skill.name) = none := by
      rw [List.find?_eq_none]
      intro x hx hpx
      exact hany (List.any_eq_true.mpr ⟨x, hx, hpx⟩)
    have hnone : lf.lookupEntry skill.name = none := by
      unfold Lockfile.lookupEntry
      rw [hfindnone]
      rfl
    have hupdate : lf.updateEntry skill now = ⟨lf.entries ++
        [(skill.name, [("source", skill.source), ("sourceUrl", skill.sourceUrl),
          ("skillPath", skill.skillPath),
          ("installedAt", now), ("updatedAt", now)])]⟩ := by
      unfold Lockfile.updateEntry
      rw [hnone]
      dsimp only
      rw [if_neg hany]
    have hlook : (lf.updateEntry skill now).lookupEntry skill.name =
        some [("source", skill.source), ("sourceUrl", skill.sourceUrl),
          ("skillPath", skill.skillPath),
          ("installedAt", now), ("updatedAt", now)] := by
      rw [hupdate]
      unfold Lockfile.lookupEntry
      dsimp only
      rw [List.find?_append, hfindnone, Option.none_or,
        List.find?_cons_of_pos _ (by simp)]
      rfl
    refine ⟨by rw [hlook]; rfl, ?_⟩
    intro e he
    rw [hlook, Option.mem_def, Option.some.injEq] at he
    subst he
    refine ⟨rfl, ?_, fun _ => rfl, ?_⟩
    · intro old hold
      rw [Option.mem_def, hnone] at hold
      cases hold
    · intro v hv
      rw [Option.mem_def] at hv
      have hv' : some now = some v := hv
      rw [Option.some.injEq] at hv'
      subst hv'
      exact le_refl now

theorem update_entry_upsert_witness :
    entryGet [("source", "repo"), ("sourceUrl", "url"), ("skillPath", "skills/sk"),
      ("installedAt", "2025"), ("updatedAt", "2025")] "updatedAt" = some "2025" :=
  ((update_entry_upsert (Lockfile.mk [("sk", [("installedAt", "2025")])])
      ⟨"sk", "repo", "url", "skills/sk"⟩ "2025"
      (by
        intro e he v hv
        have he' : some [("installedAt", "2025")] = some e := he
        injection he' with he''
        subst he''
        have hv' : some "2025" = some v := hv
        injection hv' with hv''
        subst hv''
        exact le_refl "2025")).2
    [("source", "repo"), ("sourceUrl", "url"), ("skillPath", "skills/sk"),
      ("installedAt", "2025"), ("updatedAt", "2025")] rfl).1

/-- C5: `load_lockfile` never fails: a missing file and malformed content
(unparseable, or wrong top-level shape) give the empty lockfile, and on a
well-shaped value exactly the entries that are mappings survive, with their
field values stringified, while non-mapping entries are dropped. -/
theorem load_lockfile_tolerant :
    loadLockfile .missing = ⟨[]⟩ ∧
    loadLockfile .unparseable = ⟨[]⟩ ∧
    (∀ j, entriesOf j = none → loadLockfile (.parsed j) = ⟨[]⟩) ∧
    (∀ j es, entriesOf j = some es →
      ∀ n e, ((n, e) ∈ (loadLockfile (.parsed j)).entries ↔
        ∃ fields, (n, Json.obj fields) ∈ es ∧
          e = fields.map fun f => (f.1, pyStr f.2))) := by
  refine ⟨rfl, rfl, ?_, ?_⟩
  · intro j hj
    show loadData j = ⟨[]⟩
    unfold loadData
    rw [hj]
  · intro j es hj n e
    show (n, e) ∈ (loadData j).entries ↔ _
    unfold loadData
    rw [hj]
    show (n, e) ∈ cleanEntries es ↔ _
    unfold cleanEntries
    rw [List.mem_filterMap]
    constructor
    · rintro ⟨⟨a1, a2⟩, ha, hfa⟩
      cases a2 with
      | obj fields =>
          simp only at hfa
          injection hfa with hfa
          rw [Prod.mk.injEq] at hfa
          obtain ⟨rfl, rfl⟩ := hfa
          exact ⟨fields, ha, rfl⟩
      | null => exact absurd hfa (by simp)
      | bool b => exact absurd hfa (by simp)
      | num m => exact absurd hfa (by simp)
      | str s => exact absurd hfa (by simp)
      | arr xs => exact absurd hfa (by simp)
    · rintro ⟨fields, hmem, rfl⟩
      exact ⟨(n, Json.obj fields), hmem, rfl⟩

theorem load_lockfile_tolerant_witness :
    ("a", [("source", "r")]) ∈ (loadLockfile (.parsed (Json.obj [("skills",
      Json.obj [("a", Json.obj [("source", Json.str "r")]),
        ("bad", Json.str "x")])]))).entries :=
  (load_lockfile_tolerant.2.2.2
      (Json.obj [("skills", Json.obj [("a", Json.obj [("source", Json.str "r")]),
        ("bad", Json.str "x")])])
      [("a", Json.obj [("source", Json.str "r")]), ("bad", Json.str "x")] rfl
      "a" [("source", "r")]).mpr
    ⟨[("source", Json.str "r")], List.mem_cons_self _ _, rfl⟩

/-! ## Target-root namespace labels (C8) -/

/-- C8 counterexample: the sanitization is not injective — the two distinct
target root paths `/a_b` and `/a/b` receive the same namespace label
`_a_b`, so skills from different roots with these paths would land in the
same snapshot subdirectory. -/
theorem target_label_collision :
    targetLabel ["", "a_b"] = targetLabel ["", "a", "b"] ∧
    (["", "a_b"] : FsPath) ≠ ["", "a", "b"] :=
  ⟨rfl, by decide⟩

theorem sanitize_map_eq (l : List Char) (h : ∀ c ∈ l, c ≠ '_' ∧ c ≠ ':' ∧ c ≠ '\\') :
    sanitizeChars l = l.map fun c => if c = '/' then '_' else c := by
  unfold sanitizeChars
  have h1 : (l.map fun c => if c = '\\' then '_' else c) = l := by
    conv_rhs => rw [← List.map_id l]
    apply List.map_congr_left
    intro c hc
    exact if_neg (h c hc).2.2
  rw [h1]
  apply List.filter_eq_self.mpr
  intro c hc
  rcases List.mem_map.mp hc with ⟨d, hd, rfl⟩
  by_cases hds : d = '/'
  · rw [if_pos hds]; decide
  · rw [if_neg hds]
    simpa using (h d hd).2.1

theorem slashMap_inj (l1 : List Char) : ∀ l2 : List Char,
    (∀ c ∈ l1, c ≠ '_') → (∀ c ∈ l2, c ≠ '_') →
    (l1.map fun c => if c = '/' then '_' else c) =
      (l2.map fun c => if c = '/' then '_' else c) →
    l1 = l2 := by
  induction l1 with
  | nil => intro l2 _ _ hmap; cases l2 <;> simp_all
  | cons a t ih =>
      intro l2 h1 h2 hmap
      cases l2 with
      | nil => simp at hmap
      | cons b u =>
          simp only [List.map_cons, List.cons.injEq] at hmap
          obtain ⟨hab, htu⟩ := hmap
          have hab' : a = b := by
            by_cases ha : a = '/'
            · by_cases hb : b = '/'
              · rw [ha, hb]
              · rw [if_pos ha, if_neg hb] at hab
                exact absurd hab.symm (h2 b (List.mem_cons_self b u))
            · by_cases hb : b = '/'
              · rw [if_neg ha, if_pos hb] at hab
                exact absurd hab (h1 a (List.mem_cons_self a t))
              · rw [if_neg ha, if_neg hb] at hab
                exact hab
          subst hab'
          rw [ih u (fun c hc => h1 c (List.mem_cons_of_mem a hc))
            (fun c hc => h2 c (List.mem_cons_of_mem a hc)) htu]

/-- C8 amended: the per-target-root namespace labels are distinct for every
pair of distinct roots whose rendered paths contain none of the characters
that sanitization rewrites or erases other than the separator — no `_`, no
`:`, no `\` — because on such strings the sanitization reduces to the
injective replacement of `/` by `_`.  (The same `targetLabel` function is
used by the snapshot-creation and the restore embedding, so each captured
subtree is looked up under the label of the root it came from.) -/
theorem target_label_injective_on_clean (s1 s2 : String)
    (h1 : ∀ c ∈ s1.data, c ≠ '_' ∧ c ≠ ':' ∧ c ≠ '\\')
    (h2 : ∀ c ∈ s2.data, c ≠ '_' ∧ c ≠ ':' ∧ c ≠ '\\') :
    sanitizeStr s1 = sanitizeStr s2 ↔ s1 = s2 := by
  constructor
  · intro h
    unfold sanitizeStr at h
    injection h with hdata
    rw [sanitize_map_eq _ h1, sanitize_map_eq _ h2] at hdata
    have hd := slashMap_inj s1.data s2.data
      (fun c hc => (h1 c hc).1) (fun c hc => (h2 c hc).1) hdata
    exact congrArg String.mk hd
  · intro h; rw [h]

theorem target_label_injective_on_clean_witness :
    sanitizeStr "/a/b" ≠ sanitizeStr "/a/c" :=
  fun h => absurd
    ((target_label_injective_on_clean "/a/b" "/a/c" (by decide) (by decide)).mp h)
    (by decide)

/-! ## Filesystem read-preservation lemmas -/

theorem isUnder_append (d x : FsPath) : isUnder d (d ++ x) = true := by
  unfold isUnder
  rw [List.take_left' rfl]
  simp

theorem read_writeFile_self (fs : FS) (p : FsPath) (c : String) :
    (fs.writeFile p c).read p = some c := by
  unfold FS.writeFile FS.read
  rw [List.find?_cons_of_pos _ (by simp)]
  rfl

theorem find?_filter_of_keep {α} (p q : α → Bool) (l : List α)
    (h : ∀ a ∈ l, p a = true → q a = true) :
    (l.filter q).find? p = l.find? p := by
  induction l with
  | nil => rfl
  | cons a t ih =>
      have ht : ∀ b ∈ t, p b = true → q b = true :=
        fun b hb => h b (List.mem_cons_of_mem a hb)
      by_cases hp : p a = true
      · rw [List.filter_cons_of_pos (h a (List.mem_cons_self a t) hp),
          List.find?_cons_of_pos _ hp, List.find?_cons_of_pos _ hp]
      · by_cases hq : q a = true
        · rw [List.filter_cons_of_pos hq, List.find?_cons_of_neg _ hp,
            List.find?_cons_of_neg _ hp]
          exact ih ht
        · rw [List.filter_cons_of_neg hq, List.find?_cons_of_neg _ hp]
          exact ih ht

theorem read_rmtree_of_not_under (fs : FS) (d p : FsPath) (h : isUnder d p = false) :
    (fs.rmtree d).read p = fs.read p := by
  unfold FS.rmtree FS.read
  simp only
  rw [find?_filter_of_keep]
  intro e _ hpe
  have he : e.1 = p := by simpa using hpe
  rw [he, h]
  rfl

theorem read_mkdirParents (fs : FS) (q p : FsPath) :
    (fs.mkdirParents q).read p = fs.read p := rfl

theorem read_copyTree_of_not_under (fs : FS) (src dst p : FsPath)
    (h : isUnder dst p = false) :
    (fs.copyTree src dst).read p = fs.read p := by
  unfold FS.copyTree FS.read
  simp only
  rw [List.find?_append]
  have hnone : (((fs.files.filter fun e => isUnder src e.1).map
      fun e => (dst ++ e.1.drop src.length, e.2)).find? fun e => e.1 == p) = none := by
    rw [List.find?_eq_none]
    intro x hx hpx
    rcases List.mem_map.mp hx with ⟨e, _, rfl⟩
    have hxp : dst ++ e.1.drop src.length = p := by simpa using hpx
    rw [← hxp, isUnder_append] at h
    cases h
  rw [hnone, Option.none_or]
  rw [find?_filter_of_keep]
  intro e _ hpe
  have he : e.1 = p := by simpa using hpe
  rw [Bool.not_eq_true']
  rw [List.any_eq_false]
  intro x hx
  rcases List.mem_map.mp hx with ⟨f, _, rfl⟩
  intro hxp
  have hfp : dst ++ f.1.drop src.length = e.1 := by simpa using hxp
  rw [he] at hfp
  rw [← hfp, isUnder_append] at h
  cases h

theorem read_restoreOne_of_not_under (dryRun : Bool) (sb dest p : FsPath) (fs : FS)
    (h : isUnder dest p = false) :
    (restoreOne dryRun sb dest fs).read p = fs.read p := by
  unfold restoreOne
  cases dryRun with
  | true => rfl
  | false =>
      simp only [Bool.false_eq_true, if_false]
      rw [read_copyTree_of_not_under _ _ _ _ h, read_mkdirParents]
      by_cases he : fs.pathExists dest = true
      · rw [if_pos he, read_rmtree_of_not_under _ _ _ h]
      · rw [if_neg he]

/-- C10: when at least one snapshot exists and restore-all runs without
dry-run, the live lockfile is overwritten with the snapshot's
`lockfile.json` (whenever that file exists in the snapshot) even if zero
skill directories were restored and the function returns `False` — a false
return does not imply the lockfile was left unchanged. -/
theorem restore_false_still_overwrites_lockfile
    (cfg : AppConfig) (ctx : Context) (fs : FS) (latest : FsPath) (rest : List FsPath)
    (content : String)
    (hdry : ctx.dryRun = false)
    (hl : listBackups cfg fs = latest :: rest)
    (hempty : ∀ t ∈ cfg.skillTargetPaths, childDirsOf fs (latest ++ [targetLabel t]) = [])
    (hread : fs.read (latest ++ ["lockfile.json"]) = some content) :
    restoreBackup cfg ctx none fs = (fs.writeFile (lockfilePath cfg) content, false) := by
  have hfold : cfg.skillTargetPaths.foldl (restoreTargetStep ctx none latest) (fs, false)
      = (fs, false) := by
    apply foldl_fixed
    intro a ha
    unfold restoreTargetStep
    by_cases hd : FS.isDir fs (latest ++ [targetLabel a]) = true
    · simp only [hd, if_true, givenSkill]
      show ((childDirsOf fs (latest ++ [targetLabel a])).foldl _ (fs, false)) = (fs, false)
      rw [hempty a ha]
      rfl
    · simp only [hd, Bool.false_eq_true, if_false]
  unfold restoreBackup
  rw [hl]
  simp only [hfold]
  have hcond : ((givenSkill (none : Option String)).isNone && !ctx.dryRun) = true := by
    rw [hdry]; rfl
  simp only [hcond, if_true, hread]

theorem restore_false_still_overwrites_lockfile_witness :
    restoreBackup ⟨["g"], ["w"], ["b"], 5⟩ ⟨false, false, false⟩ none
      ⟨[["b"], ["b", "t1"]], [(["b", "t1", "lockfile.json"], "LF")]⟩
      = (FS.writeFile ⟨[["b"], ["b", "t1"]], [(["b", "t1", "lockfile.json"], "LF")]⟩
          [".skill-lock.json"] "LF", false) :=
  restore_false_still_overwrites_lockfile _ _ _ ["b", "t1"] [] "LF" rfl rfl
    (by decide) rfl

/-- C3: with at least one snapshot and not dry-run, `restore_backup` with no
skill name overwrites the live lockfile file with the snapshot's captured
`lockfile.json` copy; with a (non-empty) skill name given, the live lockfile
file is left unchanged.  The side conditions say that no restore destination
`targetRoot/name` lies on the path being observed (true of any sane layout
where target roots and the backup root are disjoint subtrees). -/
theorem restore_lockfile_handling (cfg : AppConfig) (ctx : Context) (fs : FS)
    (latest : FsPath) (rest : List FsPath)
    (hdry : ctx.dryRun = false)
    (hl : listBackups cfg fs = latest :: rest) :
    (∀ content, fs.read (latest ++ ["lockfile.json"]) = some content →
      (∀ t ∈ cfg.skillTargetPaths, ∀ n,
        isUnder (t ++ [n]) (latest ++ ["lockfile.json"]) = false) →
      (restoreBackup cfg ctx none fs).1.read (lockfilePath cfg) = some content) ∧
    (∀ s : String, s ≠ "" →
      (∀ t ∈ cfg.skillTargetPaths, isUnder (t ++ [s]) (lockfilePath cfg) = false) →
      (restoreBackup cfg ctx (some s) fs).1.read (lockfilePath cfg)
        = fs.read (lockfilePath cfg)) := by
  constructor
  · intro content hread hsafe
    unfold restoreBackup
    rw [hl]
    have hpres : ((cfg.skillTargetPaths.foldl (restoreTargetStep ctx none latest)
        (fs, false)).1).read (latest ++ ["lockfile.json"])
          = fs.read (latest ++ ["lockfile.json"]) := by
      refine foldl_inv (fun st : FS × Bool =>
        st.1.read (latest ++ ["lockfile.json"])
          = fs.read (latest ++ ["lockfile.json"])) _ _ _ rfl ?_
      intro st hst a ha
      unfold restoreTargetStep
      by_cases hd : st.1.isDir (latest ++ [targetLabel a]) = true
      · simp only [hd, if_true, givenSkill]
        refine foldl_inv (fun q : FS × Bool =>
          q.1.read (latest ++ ["lockfile.json"])
            = fs.read (latest ++ ["lockfile.json"])) _ _ _ hst ?_
        intro q hq c _
        show (restoreOne ctx.dryRun c (a ++ [pathName c]) q.1).read
          (latest ++ ["lockfile.json"]) = fs.read (latest ++ ["lockfile.json"])
        rw [read_restoreOne_of_not_under _ _ _ _ _ (hsafe a ha (pathName c))]
        exact hq
      · simp only [hd, Bool.false_eq_true, if_false]
        exact hst
    have hcond : ((givenSkill (none : Option String)).isNone && !ctx.dryRun) = true := by
      rw [hdry]; rfl
    simp only [hcond, if_true, hpres.trans hread]
    exact read_writeFile_self _ _ _
  · intro s hs hsafe
    have hgiven : givenSkill (some s) = some s := by
      show (if s = "" then none else some s) = some s
      rw [if_neg hs]
    unfold restoreBackup
    rw [hl]
    have hcond : ((givenSkill (some s)).isNone && !ctx.dryRun) = false := by
      rw [hgiven]; rfl
    simp only [hcond, Bool.false_eq_true, if_false]
    refine foldl_inv (fun st : FS × Bool =>
      st.1.read (lockfilePath cfg) = fs.read (lockfilePath cfg)) _ _ _ rfl ?_
    intro st hst a ha
    unfold restoreTargetStep
    by_cases hd : st.1.isDir (latest ++ [targetLabel a]) = true
    · simp only [hd, if_true, hgiven]
      by_cases hsb : st.1.isDir (latest ++ [targetLabel a] ++ [s]) = true
      · simp only [hsb, if_true]
        show (restoreOne ctx.dryRun (latest ++ [targetLabel a] ++ [s])
          (a ++ [s]) st.1).read (lockfilePath cfg) = fs.read (lockfilePath cfg)
        rw [read_restoreOne_of_not_under _ _ _ _ _ (hsafe a ha)]
        exact hst
      · simp only [hsb, Bool.false_eq_true, if_false]
        exact hst
    · simp only [hd, Bool.false_eq_true, if_false]
      exact hst

theorem restore_lockfile_handling_witness :
    (restoreBackup ⟨["g"], ["w"], ["b"], 5⟩ ⟨false, false, false⟩ none
      ⟨[["b"], ["b", "t1"], ["b", "t1", "g"], ["b", "t1", "g", "sk"], ["g"]],
        [(["b", "t1", "lockfile.json"], "LF"),
         (["b", "t1", "g", "sk", "SKILL.md"], "v1")]⟩).1.read [".skill-lock.json"]
      = some "LF" ∧
    (restoreBackup ⟨["g"], ["w"], ["b"], 5⟩ ⟨false, false, false⟩ (some "sk")
      ⟨[["b"], ["b", "t1"], ["b", "t1", "g"], ["b", "t1", "g", "sk"], ["g"]],
        [(["b", "t1", "lockfile.json"], "LF"),
         (["b", "t1", "g", "sk", "SKILL.md"], "v1")]⟩).1.read [".skill-lock.json"]
      = none := by
  constructor
  · exact (restore_lockfile_handling
      ⟨["g"], ["w"], ["b"], 5⟩ ⟨false, false, false⟩
      ⟨[["b"], ["b", "t1"], ["b", "t1", "g"], ["b", "t1", "g", "sk"], ["g"]],
        [(["b", "t1", "lockfile.json"], "LF"),
         (["b", "t1", "g", "sk", "SKILL.md"], "v1")]⟩
      ["b", "t1"] [] rfl rfl).1 "LF" rfl
      (by
        intro t ht n
        fin_cases ht <;> simp [isUnder])
  · exact ((restore_lockfile_handling
      ⟨["g"], ["w"], ["b"], 5⟩ ⟨false, false, false⟩
      ⟨[["b"], ["b", "t1"], ["b", "t1", "g"], ["b", "t1", "g", "sk"], ["g"]],
        [(["b", "t1", "lockfile.json"], "LF"),
         (["b", "t1", "g", "sk", "SKILL.md"], "v1")]⟩
      ["b", "t1"] [] rfl rfl).2 "sk"
      (by decide) (by decide)).trans rfl

/-! ## Timestamp-label ordering (the fixed-width label is chronological) -/

theorem padNat_length (w n : Nat) : (padNat w n).length = w := by
  induction w generalizing n with
  | zero => rfl
  | succ w ih => simp [padNat, ih]

theorem padNat_mod (w n : Nat) : padNat w (n % 10 ^ w) = padNat w n := by
  induction w generalizing n with
  | zero => rfl
  | succ w ih =>
      unfold padNat
      congr 1
      · congr 1
        rw [pow_succ]
        rw [Nat.mod_mul_right_div_self]
        exact Nat.mod_mod_of_dvd _ (dvd_refl 10)
      · rw [← ih (n % 10 ^ (w + 1))]
        rw [Nat.mod_mod_of_dvd _ (pow_dvd_pow 10 (Nat.le_succ w))]
        exact ih n

theorem digitChar_lt_iff : ∀ a < 10, ∀ b < 10,
    (digitChar a < digitChar b ↔ a < b) := by decide

theorem digitChar_inj : ∀ a < 10, ∀ b < 10,
    (digitChar a = digitChar b ↔ a = b) := by decide

theorem div_mod_lt_iff (d n m : Nat) (hd : 0 < d) :
    n < m ↔ (n / d < m / d ∨ (n / d = m / d ∧ n % d < m % d)) := by
  have hn := Nat.div_add_mod n d
  have hm := Nat.div_add_mod m d
  constructor
  · intro h
    rcases Nat.lt_or_ge (n / d) (m / d) with h1 | h1
    · exact Or.inl h1
    · right
      have h3 : n / d ≤ m / d := Nat.div_le_div_right (Nat.le_of_lt h)
      have h4 : n / d = m / d := Nat.le_antisymm h3 h1
      refine ⟨h4, ?_⟩
      have h5 : d * (n / d) + n % d < d * (m / d) + m % d := by
        rw [hn, hm]; exact h
      rw [h4] at h5
      exact Nat.lt_of_add_lt_add_left h5
  · intro h
    rcases h with h1 | ⟨h1, h2⟩
    · have hmod : n % d < d := Nat.mod_lt _ hd
      have hstep : d * (n / d + 1) ≤ d * (m / d) :=
        Nat.mul_le_mul_left d (Nat.succ_le_of_lt h1)
      calc n = d * (n / d) + n % d := hn.symm
        _ < d * (n / d) + d := Nat.add_lt_add_left hmod _
        _ = d * (n / d + 1) := by rw [Nat.mul_succ]
        _ ≤ d * (m / d) := hstep
        _ ≤ d * (m / d) + m % d := Nat.le_add_right _ _
        _ = m := hm
    · calc n = d * (n / d) + n % d := hn.symm
        _ < d * (n / d) + m % d := Nat.add_lt_add_left h2 _
        _ = d * (m / d) + m % d := by rw [h1]
        _ = m := hm

theorem lex_cons_iff (a b : Char) (l1 l2 : List Char) :
    List.Lex (· < ·) (a :: l1) (b :: l2) ↔ a < b ∨ (a = b ∧ List.Lex (· < ·) l1 l2) := by
  constructor
  · intro h
    cases h with
    | rel h => exact Or.inl h
    | cons h => exact Or.inr ⟨rfl, h⟩
  · rintro (h | ⟨rfl, h⟩)
    · exact List.Lex.rel h
    · exact List.Lex.cons h

theorem padNat_lex_iff (w : Nat) : ∀ n m : Nat, n < 10 ^ w → m < 10 ^ w →
    (List.Lex (· < ·) (padNat w n) (padNat w m) ↔ n < m) := by
  induction w with
  | zero =>
      intro n m hn hm
      interval_cases n
      interval_cases m
      simp [padNat]
  | succ w ih =>
      intro n m hn hm
      have hn10 : n / 10 ^ w < 10 := by
        rw [Nat.div_lt_iff_lt_mul (Nat.pos_pow_of_pos w (by norm_num))]
        rw [← pow_succ']
        exact hn
      have hm10 : m / 10 ^ w < 10 := by
        rw [Nat.div_lt_iff_lt_mul (Nat.pos_pow_of_pos w (by norm_num))]
        rw [← pow_succ']
        exact hm
      unfold padNat
      rw [Nat.mod_eq_of_lt hn10, Nat.mod_eq_of_lt hm10]
      rw [lex_cons_iff]
      rw [digitChar_lt_iff _ hn10 _ hm10, digitChar_inj _ hn10 _ hm10]
      rw [← padNat_mod w n, ← padNat_mod w m]
      rw [ih (n % 10 ^ w) (m % 10 ^ w)
        (Nat.mod_lt _ (Nat.pos_pow_of_pos w (by norm_num)))
        (Nat.mod_lt _ (Nat.pos_pow_of_pos w (by norm_num)))]
      exact (div_mod_lt_iff (10 ^ w) n m (Nat.pos_pow_of_pos w (by norm_num))).symm

theorem padNat_inj (w n m : Nat) (hn : n < 10 ^ w) (hm : m < 10 ^ w)
    (h : padNat w n = padNat w m) : n = m := by
  by_contra hne
  rcases Nat.lt_or_ge n m with h1 | h1
  · have hl := (padNat_lex_iff w n m hn hm).mpr h1
    rw [h] at hl
    exact absurd ((padNat_lex_iff w m m hm hm).mp hl) (lt_irrefl m)
  · have h2 : m < n := Nat.lt_of_le_of_ne h1 (fun he => hne he.symm)
    have hl := (padNat_lex_iff w m n hm hn).mpr h2
    rw [h] at hl
    exact absurd ((padNat_lex_iff w m m hm hm).mp hl) (lt_irrefl m)

theorem lex_append_iff (l1 : List Char) : ∀ (l2 r1 r2 : List Char),
    l1.length = l2.length →
    (List.Lex (· < ·) (l1 ++ r1) (l2 ++ r2) ↔
      (List.Lex (· < ·) l1 l2 ∨ (l1 = l2 ∧ List.Lex (· < ·) r1 r2))) := by
  induction l1 with
  | nil =>
      intro l2 r1 r2 hlen
      cases l2 with
      | nil => simp [List.Lex.not_nil_right]
      | cons b t2 => simp at hlen
  | cons a t1 ih =>
      intro l2 r1 r2 hlen
      cases l2 with
      | nil => simp at hlen
      | cons b t2 =>
          simp only [List.length_cons, Nat.succ.injEq] at hlen
          simp only [List.cons_append]
          rw [lex_cons_iff, lex_cons_iff, ih t2 r1 r2 hlen]
          simp only [List.cons.injEq]
          constructor
          · rintro (h | ⟨rfl, (h | ⟨rfl, h⟩)⟩)
            · exact Or.inl (Or.inl h)
            · exact Or.inl (Or.inr ⟨rfl, h⟩)
            · exact Or.inr ⟨⟨rfl, rfl⟩, h⟩
          · rintro ((h | ⟨rfl, h⟩) | ⟨⟨rfl, rfl⟩, h⟩)
            · exact Or.inl h
            · exact Or.inr ⟨rfl, Or.inl h⟩
            · exact Or.inr ⟨rfl, Or.inr ⟨rfl, h⟩⟩


theorem lex_append_pad_iff {w n m : Nat} {r1 r2 : List Char} :
    List.Lex (· < ·) (padNat w n ++ r1) (padNat w m ++ r2) ↔
      (List.Lex (· < ·) (padNat w n) (padNat w m) ∨
        (padNat w n = padNat w m ∧ List.Lex (· < ·) r1 r2)) :=
  lex_append_iff _ _ _ _ (by rw [padNat_length, padNat_length])

/-- Chronologically later valid clock readings get strictly larger labels in
the string order used to sort snapshot directory names: the fixed-width UTC
encoding makes lexicographic order agree with chronological order. -/
theorem timestampLabel_lt_of_chronoLt (t u : DateTime) (ht : t.Valid) (hu : u.Valid)
    (h : t.chronoLt u) : timestampLabel t < timestampLabel u := by
  obtain ⟨hty, htmo, htd, hth, htmi, hts, htus⟩ := ht
  obtain ⟨huy, humo, hud, huh, humi, hus, huus⟩ := hu
  have hty4 : t.year < 10 ^ 4 := hty
  have huy4 : u.year < 10 ^ 4 := huy
  have htmo2 : t.month < 10 ^ 2 := htmo
  have humo2 : u.month < 10 ^ 2 := humo
  have htd2 : t.day < 10 ^ 2 := htd
  have hud2 : u.day < 10 ^ 2 := hud
  have hth2 : t.hour < 10 ^ 2 := hth
  have huh2 : u.hour < 10 ^ 2 := huh
  have htmi2 : t.minute < 10 ^ 2 := htmi
  have humi2 : u.minute < 10 ^ 2 := humi
  have hts2 : t.second < 10 ^ 2 := hts
  have hus2 : u.second < 10 ^ 2 := hus
  have htus6 : t.usec < 10 ^ 6 := htus
  have huus6 : u.usec < 10 ^ 6 := huus
  rw [String.lt_iff_toList_lt]
  show (padNat 4 t.year ++ padNat 2 t.month ++ padNat 2 t.day ++ ['T'] ++
    padNat 2 t.hour ++ padNat 2 t.minute ++ padNat 2 t.second ++ ['_'] ++
    padNat 6 t.usec ++ ['Z']) <
    (padNat 4 u.year ++ padNat 2 u.month ++ padNat 2 u.day ++ ['T'] ++
    padNat 2 u.hour ++ padNat 2 u.minute ++ padNat 2 u.second ++ ['_'] ++
    padNat 6 u.usec ++ ['Z'])
  show List.Lex (· < ·) _ _
  simp only [List.append_assoc, List.singleton_append, List.cons_append, List.nil_append]
  unfold DateTime.chronoLt at h
  rw [lex_append_pad_iff]
  rcases h with hy | ⟨hy, h⟩
  · exact Or.inl ((padNat_lex_iff 4 _ _ hty4 huy4).mpr hy)
  refine Or.inr ⟨by rw [hy], ?_⟩
  rw [lex_append_pad_iff]
  rcases h with hmo | ⟨hmo, h⟩
  · exact Or.inl ((padNat_lex_iff 2 _ _ htmo2 humo2).mpr hmo)
  refine Or.inr ⟨by rw [hmo], ?_⟩
  rw [lex_append_pad_iff]
  rcases h with hd | ⟨hd, h⟩
  · exact Or.inl ((padNat_lex_iff 2 _ _ htd2 hud2).mpr hd)
  refine Or.inr ⟨by rw [hd], ?_⟩
  rw [lex_cons_iff]
  refine Or.inr ⟨rfl, ?_⟩
  rw [lex_append_pad_iff]
  rcases h with hh | ⟨hh, h⟩
  · exact Or.inl ((padNat_lex_iff 2 _ _ hth2 huh2).mpr hh)
  refine Or.inr ⟨by rw [hh], ?_⟩
  rw [lex_append_pad_iff]
  rcases h with hmi | ⟨hmi, h⟩
  · exact Or.inl ((padNat_lex_iff 2 _ _ htmi2 humi2).mpr hmi)
  refine Or.inr ⟨by rw [hmi], ?_⟩
  rw [lex_append_pad_iff]
  rcases h with hs | ⟨hs, h⟩
  · exact Or.inl ((padNat_lex_iff 2 _ _ hts2 hus2).mpr hs)
  refine Or.inr ⟨by rw [hs], ?_⟩
  rw [lex_cons_iff]
  refine Or.inr ⟨rfl, ?_⟩
  rw [lex_append_pad_iff]
  exact Or.inl ((padNat_lex_iff 6 _ _ htus6 huus6).mpr h)

/-! ## Snapshot directory listing and retention -/

theorem contains_iff {α} [BEq α] [LawfulBEq α] (l : List α) (a : α) :
    l.contains a = true ↔ a ∈ l := by
  rw [List.contains_eq_any_beq, List.any_eq_true]
  constructor
  · rintro ⟨x, hx, he⟩
    rw [eq_of_beq he]
    exact hx
  · intro h
    exact ⟨a, h, by simp⟩

theorem isDir_iff (fs : FS) (p : FsPath) : fs.isDir p = true ↔ p ∈ fs.dirs :=
  contains_iff _ _

theorem orderedInsert_of_forall_not {α : Type _} (r : α → α → Prop) [DecidableRel r]
    (a : α) (l : List α) (h : ∀ b ∈ l, ¬ r a b) :
    List.orderedInsert r a l = l ++ [a] := by
  induction l with
  | nil => rfl
  | cons b t ih =>
      rw [List.orderedInsert, if_neg (h b (List.mem_cons_self b t)),
        ih fun c hc => h c (List.mem_cons_of_mem b hc)]
      rfl

theorem pathName_append (l : FsPath) (x : String) : pathName (l ++ [x]) = x := by
  unfold pathName
  rw [List.getLast?_concat]
  rfl

theorem sortByNameDesc_of_strict (l : List FsPath)
    (h : l.Pairwise fun a b => pathName a < pathName b) :
    sortByNameDesc l = l.reverse := by
  induction l with
  | nil => rfl
  | cons a t ih =>
      have ha := (List.pairwise_cons.mp h).1
      have ht := (List.pairwise_cons.mp h).2
      show List.orderedInsert _ a (List.insertionSort _ t) = _
      have hs : List.insertionSort (fun p q => pathName q ≤ pathName p) t = t.reverse :=
        ih ht
      rw [hs, orderedInsert_of_forall_not]
      · rw [List.reverse_cons]
      · intro b hb
        rw [List.mem_reverse] at hb
        exact not_le_of_lt (ha b hb)

theorem isUnder_refl (p : FsPath) : isUnder p p = true := by
  unfold isUnder
  rw [List.take_of_length_le (le_refl _)]
  simp

theorem isUnder_child_iff (root : FsPath) (x y : String) :
    isUnder (root ++ [x]) (root ++ [y]) = true ↔ y = x := by
  unfold isUnder
  rw [List.take_of_length_le (by simp), beq_iff_eq]
  constructor
  · intro h
    have h2 := List.append_cancel_left h
    simpa using h2
  · intro h
    rw [h]

theorem mem_pathPrefixes_self (p : FsPath) : p ∈ pathPrefixes p := by
  unfold pathPrefixes
  rw [List.mem_map]
  exact ⟨p.length, by simp, by rw [List.take_of_length_le (le_refl _)]⟩

theorem length_le_of_mem_pathPrefixes {q p : FsPath} (h : q ∈ pathPrefixes p) :
    q.length ≤ p.length := by
  unfold pathPrefixes at h
  rw [List.mem_map] at h
  rcases h with ⟨i, _, rfl⟩
  exact List.length_take_le' _ _

theorem pathPrefixes_append_singleton (l : FsPath) (x : String) :
    pathPrefixes (l ++ [x]) = pathPrefixes l ++ [l ++ [x]] := by
  unfold pathPrefixes
  rw [List.length_append, List.length_singleton, List.range_succ, List.map_append]
  congr 1
  · apply List.map_congr_left
    intro i hi
    rw [List.mem_range] at hi
    exact List.take_append_of_le_length (by omega)
  · simp only [List.map_cons, List.map_nil]
    rw [List.take_of_length_le (by simp)]

theorem mem_dirs_mkdirParents (fs : FS) (p q : FsPath) (h : q ∈ pathPrefixes p) :
    q ∈ (fs.mkdirParents p).dirs := by
  unfold FS.mkdirParents
  simp only
  rw [List.mem_append]
  by_cases hq : fs.dirs.contains q = true
  · exact Or.inl ((contains_iff _ _).mp hq)
  · right
    rw [List.mem_filter]
    refine ⟨h, ?_⟩
    rw [Bool.not_eq_true']
    exact Bool.eq_false_iff.mpr hq

theorem dirs_subset_mkdirParents (fs : FS) (p : FsPath) :
    ∀ q ∈ fs.dirs, q ∈ (fs.mkdirParents p).dirs :=
  fun _ hq => List.mem_append.mpr (Or.inl hq)

theorem dirs_subset_copyTree (fs : FS) (src dst : FsPath) :
    ∀ q ∈ fs.dirs, q ∈ (fs.copyTree src dst).dirs :=
  fun _ hq => List.mem_append.mpr (Or.inl hq)

theorem childDirsOf_writeFile (fs : FS) (p : FsPath) (c : String) (root : FsPath) :
    childDirsOf (fs.writeFile p c) root = childDirsOf fs root := rfl

theorem mem_childDirsOf_child (fs : FS) (root : FsPath) (x : String) :
    (root ++ [x]) ∈ childDirsOf fs root ↔ (root ++ [x]) ∈ fs.dirs := by
  unfold childDirsOf
  rw [List.mem_filter]
  constructor
  · exact fun h => h.1
  · intro h
    refine ⟨h, ?_⟩
    simp [isUnder_append]

theorem childDirsOf_mkdir_child (fs : FS) (root : FsPath) (x : String)
    (hnot : (root ++ [x]) ∉ fs.dirs) :
    childDirsOf (fs.mkdirParents (root ++ [x])) root
      = childDirsOf fs root ++ [root ++ [x]] := by
  unfold childDirsOf FS.mkdirParents
  simp only
  rw [List.filter_append]
  congr 1
  rw [pathPrefixes_append_singleton, List.filter_append, List.filter_append]
  have h1 : ((pathPrefixes root).filter fun q => ! fs.dirs.contains q).filter
      (fun d => d.length == root.length + 1 && isUnder root d) = [] := by
    rw [List.filter_eq_nil_iff]
    intro a ha hcond
    rcases List.mem_filter.mp ha with ⟨ha1, _⟩
    have hlen := length_le_of_mem_pathPrefixes ha1
    rw [Bool.and_eq_true, beq_iff_eq] at hcond
    omega
  have h2 : ([root ++ [x]].filter fun q => ! fs.dirs.contains q) = [root ++ [x]] := by
    rw [List.filter_eq_self]
    intro a ha
    rw [List.mem_singleton] at ha
    subst ha
    rw [Bool.not_eq_true']
    exact Bool.eq_false_iff.mpr fun hc => hnot ((contains_iff _ _).mp hc)
  rw [h1, h2]
  rw [List.nil_append]
  rw [List.filter_eq_self]
  intro a ha
  rw [List.mem_singleton] at ha
  subst ha
  simp [isUnder_append]

theorem childDirsOf_mkdir_deep (fs : FS) (root p : FsPath)
    (h : ∀ q ∈ pathPrefixes p,
      (q.length == root.length + 1 && isUnder root q) = true → q ∈ fs.dirs) :
    childDirsOf (fs.mkdirParents p) root = childDirsOf fs root := by
  unfold childDirsOf FS.mkdirParents
  simp only
  rw [List.filter_append]
  have h1 : ((pathPrefixes p).filter fun q => ! fs.dirs.contains q).filter
      (fun d => d.length == root.length + 1 && isUnder root d) = [] := by
    rw [List.filter_eq_nil_iff]
    intro a ha hcond
    rcases List.mem_filter.mp ha with ⟨ha1, ha2⟩
    have hmem := h a ha1 hcond
    rw [(contains_iff fs.dirs a).mpr hmem] at ha2
    exact absurd ha2 (by decide)
  rw [h1, List.append_nil]

theorem childDirsOf_copyTree_deep (fs : FS) (src dst root : FsPath)
    (h : root.length + 1 < dst.length) :
    childDirsOf (fs.copyTree src dst) root = childDirsOf fs root := by
  unfold childDirsOf FS.copyTree
  simp only
  rw [List.filter_append]
  have h1 : ((((fs.dirs.filter fun q => isUnder src q).map
      fun q => dst ++ q.drop src.length).filter fun q => ! fs.dirs.contains q).filter
      (fun d => d.length == root.length + 1 && isUnder root d)) = [] := by
    rw [List.filter_eq_nil_iff]
    intro a ha hcond
    rcases List.mem_filter.mp ha with ⟨ha1, _⟩
    rcases List.mem_map.mp ha1 with ⟨e, _, rfl⟩
    rw [Bool.and_eq_true, beq_iff_eq, List.length_append] at hcond
    omega
  rw [h1, List.append_nil]

theorem childDirsOf_rmtree (fs : FS) (d root : FsPath) :
    childDirsOf (fs.rmtree d) root
      = (childDirsOf fs root).filter fun q => ! isUnder d q := by
  unfold childDirsOf FS.rmtree
  simp only
  rw [List.filter_filter, List.filter_filter]
  apply List.filter_congr
  intro a _
  rw [Bool.and_comm]

theorem childDirsOf_rm_fold (ds : List FsPath) : ∀ (fs : FS) (root : FsPath),
    childDirsOf (ds.foldl (fun fs d => fs.rmtree d) fs) root
      = (childDirsOf fs root).filter fun q => ds.all fun d => ! isUnder d q := by
  induction ds with
  | nil =>
      intro fs root
      rw [List.foldl_nil]
      rw [List.filter_eq_self.mpr]
      intro a _
      rfl
  | cons d rest ih =>
      intro fs root
      rw [List.foldl_cons, ih, childDirsOf_rmtree, List.filter_filter]
      apply List.filter_congr
      intro a _
      rw [List.all_cons, Bool.and_comm]

theorem enforceRetention_childDirs (cfg : AppConfig) (fs : FS) (names : List String)
    (hdir : fs.isDir cfg.backupPath = true)
    (hC : childDirsOf fs cfg.backupPath = names.map fun x => cfg.backupPath ++ [x])
    (hstrict : names.Pairwise (· < ·)) :
    childDirsOf (enforceRetention cfg fs) cfg.backupPath
      = (names.drop (names.length - cfg.keepBackups)).map
          fun x => cfg.backupPath ++ [x] := by
  have hnodup : names.Nodup := hstrict.imp ne_of_lt
  have hmap : (names.map fun x => cfg.backupPath ++ [x]).Pairwise
      (fun a b => pathName a < pathName b) := by
    rw [List.pairwise_map]
    refine hstrict.imp ?_
    intro a b hab
    rw [pathName_append, pathName_append]
    exact hab
  have hsplit : names = names.take (names.length - cfg.keepBackups)
      ++ names.drop (names.length - cfg.keepBackups) :=
    (List.take_append_drop _ names).symm
  unfold enforceRetention
  rw [if_pos hdir, hC, sortByNameDesc_of_strict _ hmap, childDirsOf_rm_fold, hC]
  have hrev : ((names.map fun x => cfg.backupPath ++ [x]).reverse).drop cfg.keepBackups
      = ((names.take (names.length - cfg.keepBackups)).map
          fun x => cfg.backupPath ++ [x]).reverse := by
    rcases le_or_lt names.length cfg.keepBackups with hk | hk
    · have hm0 : names.length - cfg.keepBackups = 0 := by omega
      rw [hm0]
      rw [List.drop_eq_nil_of_le (by rw [List.length_reverse, List.length_map]; exact hk)]
      simp
    · conv_lhs => rw [hsplit]
      rw [List.map_append, List.reverse_append, List.drop_left']
      rw [List.length_reverse, List.length_map, List.length_drop]
      omega
  rw [hrev]
  rw [show (names.map fun x => cfg.backupPath ++ [x])
      = ((names.take (names.length - cfg.keepBackups)).map fun x => cfg.backupPath ++ [x])
        ++ ((names.drop (names.length - cfg.keepBackups)).map fun x => cfg.backupPath ++ [x])
    from by rw [← List.map_append, List.take_append_drop]]
  rw [List.filter_append]
  have h1 : (((names.take (names.length - cfg.keepBackups)).map
        fun x => cfg.backupPath ++ [x]).filter
      fun q => (((names.take (names.length - cfg.keepBackups)).map
        fun x => cfg.backupPath ++ [x]).reverse).all fun d => ! isUnder d q) = [] := by
    rw [List.filter_eq_nil_iff]
    intro q hq hcond
    rw [List.all_eq_true] at hcond
    have hqrev : q ∈ ((names.take (names.length - cfg.keepBackups)).map
        fun x => cfg.backupPath ++ [x]).reverse := List.mem_reverse.mpr hq
    have := hcond q hqrev
    rw [isUnder_refl] at this
    exact absurd this (by decide)
  have h2 : (((names.drop (names.length - cfg.keepBackups)).map
        fun x => cfg.backupPath ++ [x]).filter
      fun q => (((names.take (names.length - cfg.keepBackups)).map
        fun x => cfg.backupPath ++ [x]).reverse).all fun d => ! isUnder d q)
      = (names.drop (names.length - cfg.keepBackups)).map
          fun x => cfg.backupPath ++ [x] := by
    rw [List.filter_eq_self]
    intro q hq
    rcases List.mem_map.mp hq with ⟨x, hxB, rfl⟩
    rw [List.all_eq_true]
    intro d hd
    rcases List.mem_map.mp (List.mem_reverse.mp hd) with ⟨y, hyA, rfl⟩
    rw [Bool.not_eq_true']
    rw [Bool.eq_false_iff]
    intro htrue
    have hxy : x = y := (isUnder_child_iff _ y x).mp htrue
    rw [hsplit] at hnodup
    rcases List.nodup_append.mp hnodup with ⟨_, _, hdisj⟩
    exact hdisj hyA (hxy ▸ hxB)
  rw [h1, h2, List.nil_append]

theorem backupTargetStep_childDirs (lf : Lockfile) (bp : FsPath) (ts : String)
    (st : FS × List String) (target : FsPath)
    (hmem : (bp ++ [ts]) ∈ st.1.dirs) (hbp : bp ∈ st.1.dirs) :
    childDirsOf (backupTargetStep lf (bp ++ [ts]) st target).1 bp
        = childDirsOf st.1 bp
      ∧ (bp ++ [ts]) ∈ (backupTargetStep lf (bp ++ [ts]) st target).1.dirs
      ∧ bp ∈ (backupTargetStep lf (bp ++ [ts]) st target).1.dirs := by
  unfold backupTargetStep
  by_cases hd : st.1.isDir target = true
  · simp only [hd, if_true]
    refine foldl_inv (fun q : FS × List String =>
      childDirsOf q.1 bp = childDirsOf st.1 bp
        ∧ (bp ++ [ts]) ∈ q.1.dirs ∧ bp ∈ q.1.dirs)
      _ _ _ ⟨rfl, hmem, hbp⟩ ?_
    intro q hq kv _
    unfold backupSkillStep
    by_cases hsd : q.1.isDir (target ++ [kv.1]) = true
    · simp only [hsd, if_true]
      have hparent : pathParent ((bp ++ [ts] ++ [targetLabel target]) ++ [kv.1])
          = bp ++ [ts] ++ [targetLabel target] := by
        unfold pathParent
        rw [List.dropLast_concat]
      have hlen : bp.length + 1 < ((bp ++ [ts] ++ [targetLabel target]) ++ [kv.1]).length := by
        simp [List.length_append]
      have hpref : ∀ p' ∈ pathPrefixes (bp ++ [ts] ++ [targetLabel target]),
          (p'.length == bp.length + 1 && isUnder bp p') = true → p' ∈ q.1.dirs := by
        intro p' hp' hcond
        rw [Bool.and_eq_true, beq_iff_eq] at hcond
        unfold pathPrefixes at hp'
        rcases List.mem_map.mp hp' with ⟨i, hi, rfl⟩
        rw [List.mem_range] at hi
        have hlen' := hcond.1
        rw [List.length_take] at hlen'
        have hdl : (bp ++ [ts] ++ [targetLabel target]).length = bp.length + 2 := by
          simp [List.length_append]
        have hi2 : i = bp.length + 1 := by
          rw [hdl] at hlen' hi
          omega
        subst hi2
        have htake : (bp ++ [ts] ++ [targetLabel target]).take (bp.length + 1)
            = bp ++ [ts] := by
          rw [List.take_append_of_le_length (by simp)]
          exact List.take_of_length_le (by simp)
        rw [htake]
        exact hq.2.1
      refine ⟨?_, ?_, ?_⟩
      · rw [hparent, childDirsOf_copyTree_deep _ _ _ _ hlen,
          childDirsOf_mkdir_deep _ _ _ hpref]
        exact hq.1
      · exact dirs_subset_copyTree _ _ _ _ (dirs_subset_mkdirParents _ _ _ hq.2.1)
      · exact dirs_subset_copyTree _ _ _ _ (dirs_subset_mkdirParents _ _ _ hq.2.2)
    · simp only [hsd, Bool.false_eq_true, if_false]
      exact hq
  · simp only [hd, Bool.false_eq_true, if_false]
    exact ⟨trivial, hmem, hbp⟩

theorem createBackup_step (cfg : AppConfig) (lf : Lockfile) (t : DateTime) (fs : FS)
    (names : List String)
    (hne : lf.entries.isEmpty = false)
    (hC : childDirsOf fs cfg.backupPath = names.map fun x => cfg.backupPath ++ [x])
    (hstrict : names.Pairwise (· < ·))
    (hlt : ∀ x ∈ names, x < timestampLabel t) :
    childDirsOf (createBackup cfg lf t fs).1 cfg.backupPath
      = ((names ++ [timestampLabel t]).drop
          (names.length + 1 - cfg.keepBackups)).map
          fun x => cfg.backupPath ++ [x] := by
  have hnotmem : (cfg.backupPath ++ [timestampLabel t]) ∉ fs.dirs := by
    intro hmem
    have h1 : (cfg.backupPath ++ [timestampLabel t]) ∈ childDirsOf fs cfg.backupPath :=
      (mem_childDirsOf_child fs cfg.backupPath _).mpr hmem
    rw [hC] at h1
    rcases List.mem_map.mp h1 with ⟨x, hx, heq⟩
    have hx2 : x = timestampLabel t := by
      have h2 := List.append_cancel_left heq
      simpa using h2
    exact absurd (hx2 ▸ hlt x hx) (lt_irrefl _)
  have hinit1 : childDirsOf (fs.mkdirParents (cfg.backupPath ++ [timestampLabel t]))
      cfg.backupPath = names.map (fun x => cfg.backupPath ++ [x])
        ++ [cfg.backupPath ++ [timestampLabel t]] := by
    rw [childDirsOf_mkdir_child _ _ _ hnotmem, hC]
  have hinit2 : (cfg.backupPath ++ [timestampLabel t])
      ∈ (fs.mkdirParents (cfg.backupPath ++ [timestampLabel t])).dirs :=
    mem_dirs_mkdirParents _ _ _ (mem_pathPrefixes_self _)
  have hinit3 : cfg.backupPath
      ∈ (fs.mkdirParents (cfg.backupPath ++ [timestampLabel t])).dirs := by
    apply mem_dirs_mkdirParents
    rw [pathPrefixes_append_singleton]
    exact List.mem_append.mpr (Or.inl (mem_pathPrefixes_self _))
  have hfold := foldl_inv (fun st : FS × List String =>
      childDirsOf st.1 cfg.backupPath
          = names.map (fun x => cfg.backupPath ++ [x])
            ++ [cfg.backupPath ++ [timestampLabel t]]
        ∧ (cfg.backupPath ++ [timestampLabel t]) ∈ st.1.dirs
        ∧ cfg.backupPath ∈ st.1.dirs)
    (backupTargetStep lf (cfg.backupPath ++ [timestampLabel t]))
    cfg.skillTargetPaths
    (fs.mkdirParents (cfg.backupPath ++ [timestampLabel t]), [])
    ⟨hinit1, hinit2, hinit3⟩
    (fun st hst a _ =>
      let h3 := backupTargetStep_childDirs lf cfg.backupPath (timestampLabel t)
        st a hst.2.1 hst.2.2
      ⟨h3.1.trans hst.1, h3.2.1, h3.2.2⟩)
  have hstrict2 : (names ++ [timestampLabel t]).Pairwise (· < ·) := by
    rw [List.pairwise_append]
    refine ⟨hstrict, List.pairwise_singleton _ _, ?_⟩
    intro x hx y hy
    rw [List.mem_singleton] at hy
    subst hy
    exact hlt x hx
  unfold createBackup
  rw [hne]
  simp only [Bool.false_eq_true, if_false]
  have harith : ((names ++ [timestampLabel t]).drop
      ((names ++ [timestampLabel t]).length - cfg.keepBackups)).map
        (fun x => cfg.backupPath ++ [x])
    = ((names ++ [timestampLabel t]).drop
      (names.length + 1 - cfg.keepBackups)).map fun x => cfg.backupPath ++ [x] := by
    rw [List.length_append, List.length_singleton]
  refine (enforceRetention_childDirs cfg _ (names ++ [timestampLabel t])
    ?_ ?_ hstrict2).trans harith
  · exact (isDir_iff _ _).mpr hfold.2.2
  · rw [childDirsOf_writeFile, childDirsOf_writeFile, List.map_append]
    exact hfold.1

instance (t u : DateTime) : Decidable (t.chronoLt u) := by
  unfold DateTime.chronoLt
  infer_instance

instance (t : DateTime) : Decidable t.Valid := by
  unfold DateTime.Valid
  infer_instance

theorem retention_fold_aux (cfg : AppConfig) (runs : List (DateTime × Lockfile)) :
    ∀ (prev : List String) (fs : FS),
    (∀ r ∈ runs, r.2.entries.isEmpty = false) →
    prev.Pairwise (· < ·) →
    prev.length ≤ cfg.keepBackups →
    (∀ x ∈ prev, ∀ r ∈ runs, x < timestampLabel r.1) →
    (runs.Pairwise fun a b => timestampLabel a.1 < timestampLabel b.1) →
    childDirsOf fs cfg.backupPath = prev.map (fun x => cfg.backupPath ++ [x]) →
    childDirsOf (runs.foldl (fun fs r => (createBackup cfg r.2 r.1 fs).1) fs)
        cfg.backupPath
      = ((prev ++ runs.map fun r => timestampLabel r.1).drop
          (prev.length + runs.length - cfg.keepBackups)).map
          fun x => cfg.backupPath ++ [x] := by
  induction runs with
  | nil =>
      intro prev fs _ _ hplen _ _ hC
      rw [List.foldl_nil, hC, List.map_nil, List.append_nil, List.length_nil]
      have : prev.length + 0 - cfg.keepBackups = 0 := by omega
      rw [this, List.drop_zero]
  | cons a rest ih =>
      intro prev fs hne hstrict hplen hlt hlabels hC
      rw [List.foldl_cons]
      have hlta : ∀ x ∈ prev, x < timestampLabel a.1 :=
        fun x hx => hlt x hx a (List.mem_cons_self a rest)
      have hstep := createBackup_step cfg a.2 a.1 fs prev
        (hne a (List.mem_cons_self a rest)) hC hstrict hlta
      have hstrict2 : (prev ++ [timestampLabel a.1]).Pairwise (· < ·) := by
        rw [List.pairwise_append]
        refine ⟨hstrict, List.pairwise_singleton _ _, ?_⟩
        intro x hx y hy
        rw [List.mem_singleton] at hy
        subst hy
        exact hlta x hx
      have hih := ih ((prev ++ [timestampLabel a.1]).drop
          (prev.length + 1 - cfg.keepBackups))
        ((createBackup cfg a.2 a.1 fs).1)
        (fun r hr => hne r (List.mem_cons_of_mem a hr))
        (hstrict2.sublist (List.drop_sublist _ _))
        (by
          rw [List.length_drop, List.length_append, List.length_singleton]
          omega)
        (fun x hx r hr => by
          have hx2 := (List.drop_sublist _ _).subset hx
          rcases List.mem_append.mp hx2 with hx3 | hx3
          · exact hlt x hx3 r (List.mem_cons_of_mem a hr)
          · rw [List.mem_singleton] at hx3
            subst hx3
            exact (List.pairwise_cons.mp hlabels).1 r hr)
        hlabels.of_cons
        hstep
      rw [hih]
      have hdrop1 : (prev ++ [timestampLabel a.1]).drop
            (prev.length + 1 - cfg.keepBackups)
          ++ rest.map (fun r => timestampLabel r.1)
        = ((prev ++ [timestampLabel a.1]) ++ rest.map fun r => timestampLabel r.1).drop
            (prev.length + 1 - cfg.keepBackups) := by
        have hle : prev.length + 1 - cfg.keepBackups
            ≤ (prev ++ [timestampLabel a.1]).length := by
          rw [List.length_append, List.length_singleton]
          omega
        rw [List.drop_append_of_le_length hle]
      rw [hdrop1, List.drop_drop]
      congr 2
      · rw [List.length_drop, List.length_append, List.length_singleton,
          List.length_cons]
        omega
      · rw [List.append_assoc, List.singleton_append]
        rfl

/-- C1: for a retention count of at least one, after running `create_backup`
any number of times in sequence — each run on a non-empty lockfile, with
valid, chronologically strictly increasing clock readings — the snapshot
directories remaining under the backup root are exactly the (at most)
`keepBackups` most recently created ones, in creation order.  The proof
rests on the fixed-width timestamp label being strictly monotone in the
string order used by retention (`timestampLabel_lt_of_chronoLt`): the
lexicographic order on labels coincides with chronological order. -/
theorem retention_keeps_newest (cfg : AppConfig) (runs : List (DateTime × Lockfile))
    (fs0 : FS)
    (hkeep : 1 ≤ cfg.keepBackups)
    (hvalid : ∀ r ∈ runs, r.1.Valid)
    (hchrono : runs.Pairwise fun a b => a.1.chronoLt b.1)
    (hlf : ∀ r ∈ runs, r.2.entries ≠ [])
    (h0 : childDirsOf fs0 cfg.backupPath = []) :
    childDirsOf (runs.foldl (fun fs r => (createBackup cfg r.2 r.1 fs).1) fs0)
        cfg.backupPath
      = (runs.drop (runs.length - cfg.keepBackups)).map
          fun r => cfg.backupPath ++ [timestampLabel r.1] := by
  have hlabels : runs.Pairwise fun a b => timestampLabel a.1 < timestampLabel b.1 :=
    hchrono.imp_of_mem fun ha hb hab =>
      timestampLabel_lt_of_chronoLt _ _ (hvalid _ ha) (hvalid _ hb) hab
  have h := retention_fold_aux cfg runs [] fs0
    (fun r hr => List.isEmpty_eq_false.mpr (hlf r hr))
    List.Pairwise.nil
    (Nat.zero_le _)
    (fun x hx => absurd hx (List.not_mem_nil x))
    hlabels h0
  rw [h, List.nil_append, List.length_nil, Nat.zero_add]
  rw [← List.map_drop, List.map_map]
  rfl

theorem retention_keeps_newest_witness :
    childDirsOf
      (List.foldl (fun fs r => (createBackup ⟨["g"], ["w"], ["b"], 1⟩ r.2 r.1 fs).1)
        ⟨[], []⟩
        [(⟨2026, 1, 1, 0, 0, 0, 1⟩, ⟨[("sk", [("source", "r")])]⟩),
         (⟨2026, 1, 1, 0, 0, 0, 2⟩, ⟨[("sk", [("source", "r")])]⟩)])
      ["b"]
      = [["b", "20260101T000000_000002Z"]] :=
  (retention_keeps_newest ⟨["g"], ["w"], ["b"], 1⟩
    [(⟨2026, 1, 1, 0, 0, 0, 1⟩, ⟨[("sk", [("source", "r")])]⟩),
     (⟨2026, 1, 1, 0, 0, 0, 2⟩, ⟨[("sk", [("source", "r")])]⟩)]
    ⟨[], []⟩
    (le_refl 1)
    (by decide)
    (by
      refine List.Pairwise.cons ?_ (List.pairwise_singleton _ _)
      intro b hb
      rw [List.mem_singleton] at hb
      subst hb
      decide)
    (by decide)
    rfl).trans rfl
